import Mathlib

set_option maxRecDepth 100000

/-!
Verification development for the market-analysis extraction core in
`src/App.tsx`.  Text is modelled as `List Char`; the JavaScript string
operations used by the source (`split`, `trim`, `toLowerCase`, `includes`,
`join`) are embedded below, restricted to the ASCII character classes the
source relies on.
-/

/-- Embedding of the whitespace class accepted by the JavaScript `\s`
pattern and `trim` on the ASCII range. -/
def isWs (c : Char) : Bool :=
  c = ' ' || c = '\t' || c = '\n' || c = '\r' || c = '\x0b' || c = '\x0c'

/-- Embedding of `String.prototype.toLowerCase` on the ASCII range. -/
def toLowerList (s : List Char) : List Char :=
  s.map Char.toLower

/-- Embedding of `String.prototype.trim` on the ASCII range. -/
def trimWs (s : List Char) : List Char :=
  ((s.dropWhile isWs).reverse.dropWhile isWs).reverse

/-- Embedding of `String.prototype.split` with a single-character
separator: `"".split(c)` is `[""]`, separators at the ends produce empty
fragments. -/
def splitOnChar (sep : Char) : List Char → List (List Char)
  | [] => [[]]
  | c :: rest =>
    if c = sep then [] :: splitOnChar sep rest
    else
      match splitOnChar sep rest with
      | [] => [[c]]
      | f :: fs => (c :: f) :: fs

/-- Embedding of `Array.prototype.join` with a single-character
separator. -/
def joinSep (sep : Char) : List (List Char) → List Char
  | [] => []
  | [x] => x
  | x :: y :: rest => x ++ sep :: joinSep sep (y :: rest)

/-- Boolean test that `pat` occurs at the very start of `hay`. -/
def leadsWith : List Char → List Char → Bool
  | [], _ => true
  | _ :: _, [] => false
  | p :: ps, c :: cs => p = c && leadsWith ps cs

/-- Embedding of `String.prototype.includes`: `pat` occurs contiguously
somewhere in `hay`. -/
def containsSub (hay pat : List Char) : Bool :=
  match hay with
  | [] => pat.isEmpty
  | _ :: rest => leadsWith pat hay || containsSub rest pat

/-- Concatenation of a list of fragments. -/
def joinAll : List (List Char) → List Char
  | [] => []
  | l :: ls => l ++ joinAll ls

/-- After the digit run of the numbering pattern `\d+\.\s+`: expects a
literal dot followed by at least one whitespace character, and returns
the remainder after the greedy whitespace run. -/
def matchDotWs : List Char → Option (List Char)
  | [] => none
  | c :: r2 =>
    if c = '.' then
      if (r2.takeWhile isWs).isEmpty then none
      else some (r2.dropWhile isWs)
    else none

/-- Matcher for the regular expression `\d+\.\s+` anchored at the start
of `s`; on success returns the text remaining after the match.  Because
`\d` cannot match `.` and `\s` cannot match the first character of any
section title, the greedy, backtracking-free reading used here agrees
with the JavaScript engine on this pattern. -/
def matchNumDot (s : List Char) : Option (List Char) :=
  if (s.takeWhile Char.isDigit).isEmpty then none
  else matchDotWs (s.dropWhile Char.isDigit)

/-- Matcher for the section-heading look-ahead
`(?=\d+\.\s+(?:Competitors|Product Applications|Customer Personas|Potential Customers):)`
used by `analyzeProduct`. -/
def matchesHeading (s : List Char) : Bool :=
  match matchNumDot s with
  | some r =>
    leadsWith ( "Competitors:".toList) r ||
    leadsWith ( "Product Applications:".toList) r ||
    leadsWith ( "Customer Personas:".toList) r ||
    leadsWith ( "Potential Customers:".toList) r
  | none => false

/-- Fuel-indexed scanner for `text.split(/\d+\.\s+/)` (the consuming
split used by all three record parsers).  `acc` holds the characters of
the fragment under construction, in reverse.  The fuel is always called
with at least the length of the remaining text, so the fuel-exhausted
branch is never reached from `splitOnMarker`. -/
def splitMarkerAux : Nat → List Char → List Char → List (List Char)
  | 0, acc, s => [acc.reverse ++ s]
  | _ + 1, acc, [] => [acc.reverse]
  | fuel + 1, acc, c :: rest =>
    match matchNumDot (c :: rest) with
    | some r => acc.reverse :: splitMarkerAux fuel [] r
    | none => splitMarkerAux fuel (c :: acc) rest

/-- Embedding of `text.split(/\d+\.\s+/)` from the record parsers. -/
def splitOnMarker (s : List Char) : List (List Char) :=
  splitMarkerAux s.length [] s

/-- Number of occurrences of the `\d+\.\s+` marker found by the same
left-to-right scan that `splitOnMarker` performs. -/
def countMarkersAux : Nat → List Char → Nat
  | 0, _ => 0
  | _ + 1, [] => 0
  | fuel + 1, c :: rest =>
    match matchNumDot (c :: rest) with
    | some r => countMarkersAux fuel r + 1
    | none => countMarkersAux fuel rest

/-- Number of `\d+\.\s+` marker occurrences in `s`. -/
def countMarkers (s : List Char) : Nat :=
  countMarkersAux s.length s

/-- Does some suffix of `s` start with a `\d+\.\s+` marker match? -/
def hasMarker : List Char → Bool
  | [] => false
  | c :: rest => (matchNumDot (c :: rest)).isSome || hasMarker rest

/-- Scanner for the non-consuming (look-ahead) section split
`response.split(/(?=\d+\.\s+(?:...):)/)` of `analyzeProduct`: the text
is cut immediately before every heading match except one at position 0,
and no characters are removed. -/
def sectionSplitAux : List Char → List Char → List (List Char)
  | acc, [] => [acc.reverse]
  | acc, c :: rest =>
    if !acc.isEmpty && matchesHeading (c :: rest) then
      acc.reverse :: sectionSplitAux [c] rest
    else
      sectionSplitAux (c :: acc) rest

/-- Embedding of the look-ahead section split in `analyzeProduct`. -/
def sectionSplit (text : List Char) : List (List Char) :=
  sectionSplitAux [] text

/-- Embedding of the per-line key/value extraction shared by the three
record parsers: `const [key, ...valueParts] = line.split(':').map(part
=> part.trim()); const value = valueParts.join(':').trim();`. -/
def parseLine (line : List Char) : List Char × List Char :=
  match (splitOnChar ':' line).map trimWs with
  | [] => ([], [])
  | k :: vs => (k, trimWs (joinSep ':' vs))

/-- JavaScript truthiness of an optional string field: present and
non-empty. -/
def truthy : Option (List Char) → Bool
  | none => false
  | some v => !v.isEmpty

/-- The `Competitor` interface of the source. -/
structure Competitor where
  name : List Char
  description : List Char
  headquarters : List Char
  revenue : List Char
deriving DecidableEq

/-- The mutable `Partial<Competitor>` record assembled line by line in
`parseCompetitors`. -/
structure CompetitorDraft where
  name? : Option (List Char) := none
  description? : Option (List Char) := none
  headquarters? : Option (List Char) := none
  revenue? : Option (List Char) := none
deriving DecidableEq

/-- One iteration of the line loop of `parseCompetitors`: skip lines
without a non-empty key and value, then switch on the lowercased key. -/
def competitorStep (p : CompetitorDraft) (line : List Char) : CompetitorDraft :=
  let kv := parseLine line
  if kv.1.isEmpty || kv.2.isEmpty then p
  else if toLowerList kv.1 = ( "name".toList) then { p with name? := some kv.2 }
  else if toLowerList kv.1 = ( "description".toList) then { p with description? := some kv.2 }
  else if toLowerList kv.1 = ( "headquarters".toList) then { p with headquarters? := some kv.2 }
  else if toLowerList kv.1 = ( "revenue".toList) then { p with revenue? := some kv.2 }
  else p

/-- The truthiness validation and cast at the end of the section loop of
`parseCompetitors`. -/
def mkCompetitor (p : CompetitorDraft) : Option Competitor :=
  if truthy p.name? && truthy p.description? && truthy p.headquarters? && truthy p.revenue? then
    some { name := p.name?.getD [], description := p.description?.getD [],
           headquarters := p.headquarters?.getD [], revenue := p.revenue?.getD [] }
  else none

/-- One iteration of the section loop of `parseCompetitors`: skip
whitespace-only sections, otherwise fold the line parser over the
section's lines and validate. -/
def competitorOfSection (sec : List Char) : Option Competitor :=
  if (trimWs sec).isEmpty then none
  else mkCompetitor ((splitOnChar '\n' sec).foldl competitorStep {})

/-- Embedding of `parseCompetitors`. -/
def parseCompetitors (text : List Char) : List Competitor :=
  (splitOnMarker text).filterMap competitorOfSection

/-- The `Application` interface of the source. -/
structure Application where
  name : List Char
  description : List Char
  marketSize : List Char
  growthRate : List Char
deriving DecidableEq

/-- The mutable `Partial<Application>` record of `parseApplications`. -/
structure ApplicationDraft where
  name? : Option (List Char) := none
  description? : Option (List Char) := none
  marketSize? : Option (List Char) := none
  growthRate? : Option (List Char) := none
deriving DecidableEq

/-- One iteration of the line loop of `parseApplications`. -/
def applicationStep (p : ApplicationDraft) (line : List Char) : ApplicationDraft :=
  let kv := parseLine line
  if kv.1.isEmpty || kv.2.isEmpty then p
  else if toLowerList kv.1 = ( "name".toList) then { p with name? := some kv.2 }
  else if toLowerList kv.1 = ( "description".toList) then { p with description? := some kv.2 }
  else if toLowerList kv.1 = ( "market size".toList) then { p with marketSize? := some kv.2 }
  else if toLowerList kv.1 = ( "growth rate".toList) then { p with growthRate? := some kv.2 }
  else p

/-- The truthiness validation at the end of the section loop of
`parseApplications`. -/
def mkApplication (p : ApplicationDraft) : Option Application :=
  if truthy p.name? && truthy p.description? && truthy p.marketSize? && truthy p.growthRate? then
    some { name := p.name?.getD [], description := p.description?.getD [],
           marketSize := p.marketSize?.getD [], growthRate := p.growthRate?.getD [] }
  else none

/-- One iteration of the section loop of `parseApplications`. -/
def applicationOfSection (sec : List Char) : Option Application :=
  if (trimWs sec).isEmpty then none
  else mkApplication ((splitOnChar '\n' sec).foldl applicationStep {})

/-- Embedding of `parseApplications`. -/
def parseApplications (text : List Char) : List Application :=
  (splitOnMarker text).filterMap applicationOfSection

/-- The `CustomerPersona` interface of the source.  `salesEmail` and
`discoveryEmail` are the optional template fields. -/
structure CustomerPersona where
  name : List Char
  description : List Char
  caresMostAbout : List Char
  caresLeastAbout : List Char
  potentialCustomers : List (List Char)
  salesEmail : Option (List Char) := none
  discoveryEmail : Option (List Char) := none
deriving DecidableEq

/-- The mutable `Partial<CustomerPersona>` record of
`parseCustomerPersonas`. -/
structure PersonaDraft where
  name? : Option (List Char) := none
  description? : Option (List Char) := none
  caresMostAbout? : Option (List Char) := none
  caresLeastAbout? : Option (List Char) := none
deriving DecidableEq

/-- One iteration of the line loop of `parseCustomerPersonas`. -/
def personaStep (p : PersonaDraft) (line : List Char) : PersonaDraft :=
  let kv := parseLine line
  if kv.1.isEmpty || kv.2.isEmpty then p
  else if toLowerList kv.1 = ( "name".toList) then { p with name? := some kv.2 }
  else if toLowerList kv.1 = ( "description".toList) then { p with description? := some kv.2 }
  else if toLowerList kv.1 = ( "cares most about".toList) then { p with caresMostAbout? := some kv.2 }
  else if toLowerList kv.1 = ( "cares least about".toList) then { p with caresLeastAbout? := some kv.2 }
  else p

/-- The customer cross-referencing step of `parseCustomerPersonas`
(lines 173-177 of the source): keep the customer lines whose lowercased
text contains the lowercased persona name, take the text before the
first `-` of each, trim it, and drop empty results. -/
def relevantCustomers (name custText : List Char) : List (List Char) :=
  (((splitOnChar '\n' custText).filter
      (fun line => containsSub (toLowerList line) (toLowerList name))).map
      (fun line => trimWs ((splitOnChar '-' line).headD []))).filter
      (fun customer => customer.length > 0)

/-- The truthiness validation, cross-referencing and cast at the end of
the section loop of `parseCustomerPersonas`. -/
def mkPersona (custText : List Char) (p : PersonaDraft) : Option CustomerPersona :=
  if truthy p.name? && truthy p.description? && truthy p.caresMostAbout? && truthy p.caresLeastAbout? then
    some { name := p.name?.getD [], description := p.description?.getD [],
           caresMostAbout := p.caresMostAbout?.getD [],
           caresLeastAbout := p.caresLeastAbout?.getD [],
           potentialCustomers := relevantCustomers (p.name?.getD []) custText }
  else none

/-- One iteration of the section loop of `parseCustomerPersonas`. -/
def personaOfSection (custText sec : List Char) : Option CustomerPersona :=
  if (trimWs sec).isEmpty then none
  else mkPersona custText ((splitOnChar '\n' sec).foldl personaStep {})

/-- The first comma-delimited segment
`persona.caresMostAbout.split(',')[0]` used by `generateSalesEmail`. -/
def firstCommaSeg (s : List Char) : List Char :=
  (splitOnChar ',' s).headD []

/-- Embedding of `generateSalesEmail`. -/
def generateSalesEmail (persona : CustomerPersona) (productName : List Char) : List Char :=
  ( "Subject: Streamline Your ".toList) ++ persona.name ++
  ( "\x27s Workflow with ".toList) ++ productName ++
  ( "\n\nDear [Name],\n\nI hope this email finds you well. I understand that as a ".toList) ++
  persona.name ++ ( ", you\x27re focused on ".toList) ++ persona.caresMostAbout ++
  ( ".\n\n".toList) ++ productName ++
  ( " was specifically designed to address these priorities while eliminating concerns about ".toList) ++
  persona.caresLeastAbout ++
  ( ".\n\nI\x27d love to schedule a brief 30-minute call to show you how ".toList) ++
  productName ++ ( " can help you:\n- Maximize ".toList) ++
  firstCommaSeg persona.caresMostAbout ++
  ( "\n- Streamline your workflow\n- Achieve better results with less effort\n\nWould you be available for a quick call this week? I have slots open on Tuesday at 2 PM or Thursday at 10 AM.\n\nBest regards,\n[Your name]".toList)

/-- Embedding of `generateDiscoveryEmail` (its `productName` parameter
is unused by the template body, as in the source). -/
def generateDiscoveryEmail (persona : CustomerPersona) (_productName : List Char) : List Char :=
  ( "Subject: Quick question about your ".toList) ++ persona.name ++
  ( " challenges\n\nHi [Name],\n\nI\x27m reaching out because we\x27ve been working with several ".toList) ++
  persona.name ++ ( "s who are dealing with challenges around ".toList) ++
  persona.caresMostAbout ++
  ( ".\n\nI\x27d love to learn more about:\n- How you\x27re currently handling these challenges\n- What solutions you\x27ve tried before\n- What would make the biggest impact on your workflow\n\nWould you be open to a 15-minute conversation to share your insights? Your experience would be invaluable for our research.\n\nBest regards,\n[Your name]".toList)

/-- The final `personas.map` of `parseCustomerPersonas`, attaching both
templates to a persona. -/
def addEmails (productName : List Char) (p : CustomerPersona) : CustomerPersona :=
  { p with salesEmail := some (generateSalesEmail p productName),
           discoveryEmail := some (generateDiscoveryEmail p productName) }

/-- Embedding of `parseCustomerPersonas`.  In the source `productName`
is read from the surrounding component state; here it is an explicit
parameter. -/
def parseCustomerPersonas (productName text custText : List Char) : List CustomerPersona :=
  ((splitOnMarker text).filterMap (personaOfSection custText)).map (addEmails productName)

/-- The four section-fragment variables of `analyzeProduct`. -/
structure SectionBundle where
  competitorsSection : List Char := []
  applicationsSection : List Char := []
  personasSection : List Char := []
  customersSection : List Char := []
deriving DecidableEq

/-- One iteration of the classification loop of `analyzeProduct`
(lines 328-338): `if`/`else if` on which section title the fragment
contains, later fragments overwriting earlier ones. -/
def classifyStep (st : SectionBundle) (sec : List Char) : SectionBundle :=
  if containsSub sec ( "Competitors:".toList) then { st with competitorsSection := sec }
  else if containsSub sec ( "Product Applications:".toList) then { st with applicationsSection := sec }
  else if containsSub sec ( "Customer Personas:".toList) then { st with personasSection := sec }
  else if containsSub sec ( "Potential Customers:".toList) then { st with customersSection := sec }
  else st

/-- Embedding of the section splitting and classification prelude of
`analyzeProduct`. -/
def classifySections (text : List Char) : SectionBundle :=
  (sectionSplit text).foldl classifyStep {}

/-- The text of a line up to (excluding) its first newline. -/
def firstLine (s : List Char) : List Char :=
  s.takeWhile (fun c => c ≠ '\n')

/-- The value the line loop would store for a given recognized
(lowercase) label from one line: `some value` exactly when the line has
a non-empty key and value and the lowercased key equals the label. -/
def extractVal (label line : List Char) : Option (List Char) :=
  let kv := parseLine line
  if kv.1.isEmpty || kv.2.isEmpty then none
  else if toLowerList kv.1 = label then some kv.2 else none

/-- `splitOnChar` never returns the empty list of fragments. -/
lemma splitOnChar_ne_nil (sep : Char) (l : List Char) : splitOnChar sep l ≠ [] := by
  induction l with
  | nil => simp [splitOnChar]
  | cons c rest ih =>
    simp only [splitOnChar]
    split
    · simp
    · cases h : splitOnChar sep rest <;> simp [h]

/-- The first fragment of a character split is the text before the first
separator. -/
lemma splitOnChar_headD (sep : Char) (l : List Char) :
    (splitOnChar sep l).headD [] = l.takeWhile (fun c => c ≠ sep) := by
  induction l with
  | nil => simp [splitOnChar]
  | cons c rest ih =>
    simp only [splitOnChar, List.takeWhile_cons]
    by_cases h : c = sep
    · simp [h]
    · simp only [if_neg h]
      cases hs : splitOnChar sep rest with
      | nil => exact absurd hs (splitOnChar_ne_nil sep rest)
      | cons f fs =>
        rw [hs] at ih
        simp only [List.headD_cons] at ih
        simp [h, ih]

/-- A list without the separator splits into itself alone. -/
lemma splitOnChar_single (sep : Char) (l : List Char) (h : ∀ c ∈ l, ¬ c = sep) :
    splitOnChar sep l = [l] := by
  induction l with
  | nil => rfl
  | cons c rest ih =>
    have hc : ¬ c = sep := h c (by simp)
    have hr := ih (fun d hd => h d (by simp [hd]))
    simp [splitOnChar, hc, hr]

lemma lenDropWhileLe (p : Char → Bool) (l : List Char) :
    (l.dropWhile p).length ≤ l.length := by
  induction l with
  | nil => simp
  | cons c rest ih =>
    rw [List.dropWhile_cons]
    split
    · exact Nat.le_succ_of_le ih
    · exact Nat.le_refl _

lemma matchDotWs_some_length {v r : List Char} (h : matchDotWs v = some r) :
    r.length < v.length := by
  cases v with
  | nil => simp [matchDotWs] at h
  | cons c r2 =>
    simp only [matchDotWs] at h
    split at h
    · split at h
      · exact absurd h (by simp)
      · have hle := lenDropWhileLe isWs r2
        simp only [Option.some.injEq] at h
        subst h
        simpa [List.length_cons] using Nat.lt_succ_of_le hle
    · exact absurd h (by simp)

lemma matchNumDot_some_length {s r : List Char} (h : matchNumDot s = some r) :
    r.length < s.length := by
  simp only [matchNumDot] at h
  split at h
  · exact absurd h (by simp)
  · exact Nat.lt_of_lt_of_le (matchDotWs_some_length h) (lenDropWhileLe Char.isDigit s)

lemma takeWhile_isEmpty_false {p : Char → Bool} {l : List Char}
    (h : (l.takeWhile p).isEmpty = false) : ∃ c l2, l = c :: l2 ∧ p c = true := by
  cases l with
  | nil => simp [List.takeWhile] at h
  | cons c l2 =>
    rw [List.takeWhile_cons] at h
    by_cases hc : p c = true
    · exact ⟨c, l2, rfl, hc⟩
    · simp [hc] at h

lemma dropWhile_append_ne {p : Char → Bool} :
    ∀ (t u : List Char), t.dropWhile p ≠ [] →
      (t ++ u).dropWhile p = t.dropWhile p ++ u := by
  intro t
  induction t with
  | nil => intro u h; exact absurd rfl h
  | cons c t2 ih =>
    intro u h
    rw [List.dropWhile_cons] at h
    rw [List.cons_append, List.dropWhile_cons, List.dropWhile_cons]
    cases hc : p c with
    | true =>
      simp only [hc, if_true] at h ⊢
      exact ih u h
    | false =>
      simp only [hc] at h ⊢
      simp

lemma matchDotWs_isSome_append {v : List Char} (u : List Char) {r : List Char}
    (h : matchDotWs v = some r) : (matchDotWs (v ++ u)).isSome = true := by
  cases v with
  | nil => simp [matchDotWs] at h
  | cons c r2 =>
    rw [List.cons_append]
    simp only [matchDotWs] at h ⊢
    by_cases hdot : c = '.'
    · simp only [if_pos hdot] at h ⊢
      by_cases hws : (r2.takeWhile isWs).isEmpty = true
      · rw [if_pos hws] at h; exact absurd h (by simp)
      · have hws2 : (r2.takeWhile isWs).isEmpty = false := by simpa using hws
        obtain ⟨w, r2t, hr2, hw⟩ := takeWhile_isEmpty_false hws2
        have hta : ((r2 ++ u).takeWhile isWs).isEmpty = false := by
          rw [hr2, List.cons_append, List.takeWhile_cons, if_pos hw]
          rfl
        rw [if_neg (by simp [hta])]
        simp
    · rw [if_neg hdot] at h; exact absurd h (by simp)

/-- If the `\d+\.\s+` pattern matches at the start of `t`, it also
matches at the start of any extension `t ++ u`. -/
lemma matchNumDot_isSome_append {t : List Char} (u : List Char) {r : List Char}
    (h : matchNumDot t = some r) : (matchNumDot (t ++ u)).isSome = true := by
  simp only [matchNumDot] at h ⊢
  by_cases hd : (t.takeWhile Char.isDigit).isEmpty = true
  · rw [if_pos hd] at h; exact absurd h (by simp)
  · have hd2 : (t.takeWhile Char.isDigit).isEmpty = false := by simpa using hd
    rw [if_neg hd] at h
    obtain ⟨c, t2, ht, hc⟩ := takeWhile_isEmpty_false hd2
    have hne : t.dropWhile Char.isDigit ≠ [] := by
      intro hnil; rw [hnil] at h; simp [matchDotWs] at h
    have happ : (t ++ u).dropWhile Char.isDigit = t.dropWhile Char.isDigit ++ u :=
      dropWhile_append_ne t u hne
    have hta : ((t ++ u).takeWhile Char.isDigit).isEmpty = false := by
      subst ht
      rw [List.cons_append, List.takeWhile_cons, if_pos hc]
      rfl
    rw [if_neg (by simp [hta]), happ]
    exact matchDotWs_isSome_append u h

lemma splitMarkerAux_ne_nil :
    ∀ (fuel : Nat) (acc s : List Char), splitMarkerAux fuel acc s ≠ [] := by
  intro fuel
  induction fuel with
  | zero => intro acc s; simp [splitMarkerAux]
  | succ n ih =>
    intro acc s
    cases s with
    | nil => simp [splitMarkerAux]
    | cons c rest =>
      simp only [splitMarkerAux]
      cases h : matchNumDot (c :: rest) with
      | some r => simp
      | none => exact ih (c :: acc) rest

/-- With sufficient fuel, the consuming split produces exactly one more
fragment than the number of marker occurrences. -/
lemma splitMarkerAux_length :
    ∀ (fuel : Nat) (acc s : List Char), s.length ≤ fuel →
      (splitMarkerAux fuel acc s).length = countMarkersAux fuel s + 1 := by
  intro fuel
  induction fuel with
  | zero => intro acc s hs; simp [splitMarkerAux, countMarkersAux]
  | succ n ih =>
    intro acc s hs
    cases s with
    | nil => simp [splitMarkerAux, countMarkersAux]
    | cons c rest =>
      simp only [splitMarkerAux, countMarkersAux]
      cases h : matchNumDot (c :: rest) with
      | some r =>
        have hr : r.length ≤ n := by
          have hlt := matchNumDot_some_length h
          simp only [List.length_cons] at hs hlt
          omega
        simp only [List.length_cons, ih [] r hr]
      | none =>
        have hrest : rest.length ≤ n := by
          simp only [List.length_cons] at hs
          omega
        exact ih (c :: acc) rest hrest

lemma splitOnMarker_length (s : List Char) :
    (splitOnMarker s).length = countMarkers s + 1 :=
  splitMarkerAux_length s.length [] s (Nat.le_refl _)

/-- A fragment none of whose suffixes starts a marker match is
marker-free. -/
lemma hasMarker_eq_false_of (l : List Char)
    (h : ∀ b, b <:+ l → b ≠ [] → matchNumDot b = none) : hasMarker l = false := by
  induction l with
  | nil => rfl
  | cons c rest ih =>
    have h1 : matchNumDot (c :: rest) = none := h _ (List.suffix_refl _) (by simp)
    simp only [hasMarker, h1, Option.isSome_none, Bool.false_or]
    exact ih (fun b hb hne => h b (hb.trans (List.suffix_cons c rest)) hne)

/-- Invariant of the consuming-split scanner: if no already-scanned
position of the current fragment starts a marker match (relative to the
remaining text), then every emitted fragment is marker-free. -/
lemma splitMarkerAux_pure :
    ∀ (fuel : Nat) (acc s : List Char), s.length ≤ fuel →
      (∀ q : List Char, q <+: acc → q ≠ [] → matchNumDot (q.reverse ++ s) = none) →
      ∀ frag ∈ splitMarkerAux fuel acc s, hasMarker frag = false := by
  intro fuel
  induction fuel with
  | zero =>
    intro acc s hs hinv frag hfrag
    have hs0 : s = [] := List.length_eq_zero.mp (Nat.le_zero.mp hs)
    subst hs0
    simp only [splitMarkerAux, List.append_nil, List.mem_singleton] at hfrag
    subst hfrag
    apply hasMarker_eq_false_of
    intro b hb hne
    have hq : b.reverse <+: acc := by
      rw [← List.reverse_reverse b, ← List.reverse_reverse acc] at hb
      rw [List.reverse_suffix] at hb
      simpa using hb
    have := hinv b.reverse hq (by simpa using hne)
    simpa using this
  | succ n ih =>
    intro acc s hs hinv frag hfrag
    cases s with
    | nil =>
      simp only [splitMarkerAux, List.mem_singleton] at hfrag
      subst hfrag
      apply hasMarker_eq_false_of
      intro b hb hne
      have hq : b.reverse <+: acc := by
        rw [← List.reverse_reverse b, ← List.reverse_reverse acc] at hb
        rw [List.reverse_suffix] at hb
        simpa using hb
      have := hinv b.reverse hq (by simpa using hne)
      simpa using this
    | cons c rest =>
      simp only [splitMarkerAux] at hfrag
      cases hm : matchNumDot (c :: rest) with
      | some r =>
        rw [hm] at hfrag
        simp only [List.mem_cons] at hfrag
        rcases hfrag with hfrag | hfrag
        · subst hfrag
          apply hasMarker_eq_false_of
          intro b hb hne
          have hq : b.reverse <+: acc := by
            rw [← List.reverse_reverse b, ← List.reverse_reverse acc] at hb
            rw [List.reverse_suffix] at hb
            simpa using hb
          have hnone := hinv b.reverse hq (by simpa using hne)
          simp only [List.reverse_reverse] at hnone
          cases hb2 : matchNumDot b with
          | none => rfl
          | some r2 =>
            have := matchNumDot_isSome_append (c :: rest) hb2
            rw [hnone] at this
            simp at this
        · have hr : r.length ≤ n := by
            have hlt := matchNumDot_some_length hm
            simp only [List.length_cons] at hs hlt
            omega
          exact ih [] r hr (by intro q hq hne; rw [List.prefix_nil] at hq; exact absurd hq hne) frag hfrag
      | none =>
        rw [hm] at hfrag
        have hrest : rest.length ≤ n := by
          simp only [List.length_cons] at hs
          omega
        refine ih (c :: acc) rest hrest ?_ frag hfrag
        intro q hq hne
        cases q with
        | nil => exact absurd rfl hne
        | cons q0 qs =>
          rw [List.cons_prefix_cons] at hq
          obtain ⟨rfl, hqs⟩ := hq
          rw [List.reverse_cons, List.append_assoc, List.singleton_append]
          by_cases hqs0 : qs = []
          · subst hqs0
            simpa using hm
          · exact hinv qs hqs hqs0

lemma leadsWith_iff : ∀ (pat hay : List Char), leadsWith pat hay = true ↔ pat <+: hay := by
  intro pat
  induction pat with
  | nil => intro hay; simp [leadsWith]
  | cons p ps ih =>
    intro hay
    cases hay with
    | nil => simp [leadsWith]
    | cons c cs =>
      simp [leadsWith, List.cons_prefix_cons, ih]

lemma containsSub_iff : ∀ (hay pat : List Char), containsSub hay pat = true ↔ pat <:+: hay := by
  intro hay
  induction hay with
  | nil => intro pat; simp [containsSub, List.isEmpty_iff, List.infix_nil]
  | cons c rest ih =>
    intro pat
    simp only [containsSub, Bool.or_eq_true, leadsWith_iff, ih, List.infix_cons_iff]

/-- The look-ahead section split removes no characters: its fragments
concatenate back to the input. -/
lemma sectionSplitAux_join : ∀ (s acc : List Char),
    joinAll (sectionSplitAux acc s) = acc.reverse ++ s := by
  intro s
  induction s with
  | nil => intro acc; simp [sectionSplitAux, joinAll]
  | cons c rest ih =>
    intro acc
    simp only [sectionSplitAux]
    split
    · simp only [joinAll, ih]
      simp
    · rw [ih]
      simp

lemma mem_joinAll_isPart : ∀ (L : List (List Char)) (l : List Char),
    l ∈ L → l <:+: joinAll L := by
  intro L
  induction L with
  | nil => intro l h; simp at h
  | cons x xs ih =>
    intro l h
    rcases List.mem_cons.mp h with rfl | h
    · exact ⟨[], joinAll xs, by simp [joinAll]⟩
    · obtain ⟨s, t, hst⟩ := ih l h
      exact ⟨x ++ s, t, by simp [joinAll, ← hst, List.append_assoc]⟩

/-- Every fragment of the section split is a contiguous substring of the
input text. -/
lemma sectionSplit_isPart (text frag : List Char) (h : frag ∈ sectionSplit text) :
    frag <:+: text := by
  simp only [sectionSplit] at h
  have h2 := mem_joinAll_isPart _ frag h
  rw [sectionSplitAux_join text []] at h2
  simpa using h2

lemma containsSub_false_of_isPart {big small pat : List Char}
    (hb : containsSub big pat = false) (hinf : small <:+: big) :
    containsSub small pat = false := by
  cases hc : containsSub small pat with
  | false => rfl
  | true =>
    have h1 : pat <:+: small := (containsSub_iff small pat).mp hc
    have h2 : pat <:+: big := h1.trans hinf
    rw [(containsSub_iff big pat).mpr h2] at hb
    exact absurd hb (by simp)

lemma classify_foldl_comp : ∀ (frags : List (List Char)) (st : SectionBundle),
    (∀ f ∈ frags, containsSub f ( "Competitors:".toList) = false) →
    (frags.foldl classifyStep st).competitorsSection = st.competitorsSection := by
  intro frags
  induction frags with
  | nil => intro st _; rfl
  | cons f fs ih =>
    intro st h
    have hf := h f (by simp)
    have hstep : (classifyStep st f).competitorsSection = st.competitorsSection := by
      simp only [classifyStep, hf]
      split_ifs <;> simp_all
    rw [List.foldl_cons, ih (classifyStep st f) (fun g hg => h g (by simp [hg])), hstep]

lemma classify_foldl_app : ∀ (frags : List (List Char)) (st : SectionBundle),
    (∀ f ∈ frags, containsSub f ( "Product Applications:".toList) = false) →
    (frags.foldl classifyStep st).applicationsSection = st.applicationsSection := by
  intro frags
  induction frags with
  | nil => intro st _; rfl
  | cons f fs ih =>
    intro st h
    have hf := h f (by simp)
    have hstep : (classifyStep st f).applicationsSection = st.applicationsSection := by
      simp only [classifyStep, hf]
      split_ifs <;> simp_all
    rw [List.foldl_cons, ih (classifyStep st f) (fun g hg => h g (by simp [hg])), hstep]

lemma classify_foldl_per : ∀ (frags : List (List Char)) (st : SectionBundle),
    (∀ f ∈ frags, containsSub f ( "Customer Personas:".toList) = false) →
    (frags.foldl classifyStep st).personasSection = st.personasSection := by
  intro frags
  induction frags with
  | nil => intro st _; rfl
  | cons f fs ih =>
    intro st h
    have hf := h f (by simp)
    have hstep : (classifyStep st f).personasSection = st.personasSection := by
      simp only [classifyStep, hf]
      split_ifs <;> simp_all
    rw [List.foldl_cons, ih (classifyStep st f) (fun g hg => h g (by simp [hg])), hstep]

lemma classify_foldl_cust : ∀ (frags : List (List Char)) (st : SectionBundle),
    (∀ f ∈ frags, containsSub f ( "Potential Customers:".toList) = false) →
    (frags.foldl classifyStep st).customersSection = st.customersSection := by
  intro frags
  induction frags with
  | nil => intro st _; rfl
  | cons f fs ih =>
    intro st h
    have hf := h f (by simp)
    have hstep : (classifyStep st f).customersSection = st.customersSection := by
      simp only [classifyStep, hf]
      split_ifs <;> simp_all
    rw [List.foldl_cons, ih (classifyStep st f) (fun g hg => h g (by simp [hg])), hstep]

/-- Claim C7: if a section title is absent from the input text, the
corresponding section fragment of `analyzeProduct` is the empty string,
and each of the three parsers returns an empty entity list (rather than
failing) on an empty fragment. -/
theorem claim_c7_absent_title_empty (text pn ct : List Char) :
    (containsSub text ( "Competitors:".toList) = false →
      (classifySections text).competitorsSection = []) ∧
    (containsSub text ( "Product Applications:".toList) = false →
      (classifySections text).applicationsSection = []) ∧
    (containsSub text ( "Customer Personas:".toList) = false →
      (classifySections text).personasSection = []) ∧
    (containsSub text ( "Potential Customers:".toList) = false →
      (classifySections text).customersSection = []) ∧
    parseCompetitors [] = [] ∧ parseApplications [] = [] ∧
    parseCustomerPersonas pn [] ct = [] := by
  refine ⟨?_, ?_, ?_, ?_, rfl, rfl, rfl⟩
  · intro h
    have hall : ∀ f ∈ sectionSplit text, containsSub f ( "Competitors:".toList) = false :=
      fun f hf => containsSub_false_of_isPart h (sectionSplit_isPart text f hf)
    simpa [classifySections] using classify_foldl_comp (sectionSplit text) {} hall
  · intro h
    have hall : ∀ f ∈ sectionSplit text, containsSub f ( "Product Applications:".toList) = false :=
      fun f hf => containsSub_false_of_isPart h (sectionSplit_isPart text f hf)
    simpa [classifySections] using classify_foldl_app (sectionSplit text) {} hall
  · intro h
    have hall : ∀ f ∈ sectionSplit text, containsSub f ( "Customer Personas:".toList) = false :=
      fun f hf => containsSub_false_of_isPart h (sectionSplit_isPart text f hf)
    simpa [classifySections] using classify_foldl_per (sectionSplit text) {} hall
  · intro h
    have hall : ∀ f ∈ sectionSplit text, containsSub f ( "Potential Customers:".toList) = false :=
      fun f hf => containsSub_false_of_isPart h (sectionSplit_isPart text f hf)
    simpa [classifySections] using classify_foldl_cust (sectionSplit text) {} hall

/-- Witness for claim C7 at a concrete text containing none of the four
section titles. -/
theorem claim_c7_witness :
    (containsSub ( "just some prose".toList) ( "Competitors:".toList) = false ∧
      (classifySections ( "just some prose".toList)).competitorsSection = []) ∧
    (containsSub ( "just some prose".toList) ( "Product Applications:".toList) = false ∧
      (classifySections ( "just some prose".toList)).applicationsSection = []) ∧
    (containsSub ( "just some prose".toList) ( "Customer Personas:".toList) = false ∧
      (classifySections ( "just some prose".toList)).personasSection = []) ∧
    (containsSub ( "just some prose".toList) ( "Potential Customers:".toList) = false ∧
      (classifySections ( "just some prose".toList)).customersSection = []) ∧
    parseCompetitors [] = [] ∧ parseApplications [] = [] ∧
    parseCustomerPersonas ( "Widget".toList) [] [] = [] :=
  ⟨⟨by decide, (claim_c7_absent_title_empty ( "just some prose".toList) ( "Widget".toList) []).1 (by decide)⟩,
   ⟨by decide, (claim_c7_absent_title_empty ( "just some prose".toList) ( "Widget".toList) []).2.1 (by decide)⟩,
   ⟨by decide, (claim_c7_absent_title_empty ( "just some prose".toList) ( "Widget".toList) []).2.2.1 (by decide)⟩,
   ⟨by decide, (claim_c7_absent_title_empty ( "just some prose".toList) ( "Widget".toList) []).2.2.2.1 (by decide)⟩,
   (claim_c7_absent_title_empty ( "just some prose".toList) ( "Widget".toList) []).2.2.2.2.1,
   (claim_c7_absent_title_empty ( "just some prose".toList) ( "Widget".toList) []).2.2.2.2.2.1,
   (claim_c7_absent_title_empty ( "just some prose".toList) ( "Widget".toList) []).2.2.2.2.2.2⟩

lemma truthy_getD_ne {o : Option (List Char)} (h : truthy o = true) : o.getD [] ≠ [] := by
  cases o with
  | none => simp [truthy] at h
  | some v =>
    simp only [Option.getD_some]
    intro hv
    subst hv
    simp [truthy] at h

lemma mkCompetitor_fields {d : CompetitorDraft} {c : Competitor}
    (h : mkCompetitor d = some c) :
    c.name ≠ [] ∧ c.description ≠ [] ∧ c.headquarters ≠ [] ∧ c.revenue ≠ [] := by
  simp only [mkCompetitor] at h
  split at h
  · rename_i hcond
    simp only [Bool.and_eq_true] at hcond
    obtain ⟨⟨⟨h1, h2⟩, h3⟩, h4⟩ := hcond
    simp only [Option.some.injEq] at h
    subst h
    exact ⟨truthy_getD_ne h1, truthy_getD_ne h2, truthy_getD_ne h3, truthy_getD_ne h4⟩
  · exact absurd h (by simp)

lemma mkApplication_fields {d : ApplicationDraft} {a : Application}
    (h : mkApplication d = some a) :
    a.name ≠ [] ∧ a.description ≠ [] ∧ a.marketSize ≠ [] ∧ a.growthRate ≠ [] := by
  simp only [mkApplication] at h
  split at h
  · rename_i hcond
    simp only [Bool.and_eq_true] at hcond
    obtain ⟨⟨⟨h1, h2⟩, h3⟩, h4⟩ := hcond
    simp only [Option.some.injEq] at h
    subst h
    exact ⟨truthy_getD_ne h1, truthy_getD_ne h2, truthy_getD_ne h3, truthy_getD_ne h4⟩
  · exact absurd h (by simp)

lemma mkPersona_fields {ct : List Char} {d : PersonaDraft} {p : CustomerPersona}
    (h : mkPersona ct d = some p) :
    p.name ≠ [] ∧ p.description ≠ [] ∧ p.caresMostAbout ≠ [] ∧ p.caresLeastAbout ≠ [] := by
  simp only [mkPersona] at h
  split at h
  · rename_i hcond
    simp only [Bool.and_eq_true] at hcond
    obtain ⟨⟨⟨h1, h2⟩, h3⟩, h4⟩ := hcond
    simp only [Option.some.injEq] at h
    subst h
    exact ⟨truthy_getD_ne h1, truthy_getD_ne h2, truthy_getD_ne h3, truthy_getD_ne h4⟩
  · exact absurd h (by simp)

lemma competitorOfSection_some {sec : List Char} {c : Competitor}
    (h : competitorOfSection sec = some c) :
    mkCompetitor ((splitOnChar '\n' sec).foldl competitorStep {}) = some c := by
  simp only [competitorOfSection] at h
  split at h
  · exact absurd h (by simp)
  · exact h

lemma applicationOfSection_some {sec : List Char} {a : Application}
    (h : applicationOfSection sec = some a) :
    mkApplication ((splitOnChar '\n' sec).foldl applicationStep {}) = some a := by
  simp only [applicationOfSection] at h
  split at h
  · exact absurd h (by simp)
  · exact h

lemma personaOfSection_some {ct sec : List Char} {p : CustomerPersona}
    (h : personaOfSection ct sec = some p) :
    mkPersona ct ((splitOnChar '\n' sec).foldl personaStep {}) = some p := by
  simp only [personaOfSection] at h
  split at h
  · exact absurd h (by simp)
  · exact h

/-- Claim C1: every entity in every list returned by the parsers has all
of its required string fields non-empty, and a draft record with any
required field missing or empty (falsy) builds no entity. -/
theorem claim_c1_required_fields (text pn ct : List Char) :
    (∀ c ∈ parseCompetitors text,
      c.name ≠ [] ∧ c.description ≠ [] ∧ c.headquarters ≠ [] ∧ c.revenue ≠ []) ∧
    (∀ a ∈ parseApplications text,
      a.name ≠ [] ∧ a.description ≠ [] ∧ a.marketSize ≠ [] ∧ a.growthRate ≠ []) ∧
    (∀ p ∈ parseCustomerPersonas pn text ct,
      p.name ≠ [] ∧ p.description ≠ [] ∧ p.caresMostAbout ≠ [] ∧ p.caresLeastAbout ≠ []) ∧
    (∀ d : CompetitorDraft, (truthy d.name? = false ∨ truthy d.description? = false ∨
      truthy d.headquarters? = false ∨ truthy d.revenue? = false) → mkCompetitor d = none) ∧
    (∀ d : ApplicationDraft, (truthy d.name? = false ∨ truthy d.description? = false ∨
      truthy d.marketSize? = false ∨ truthy d.growthRate? = false) → mkApplication d = none) ∧
    (∀ d : PersonaDraft, (truthy d.name? = false ∨ truthy d.description? = false ∨
      truthy d.caresMostAbout? = false ∨ truthy d.caresLeastAbout? = false) →
      mkPersona ct d = none) := by
  refine ⟨?_, ?_, ?_, ?_, ?_, ?_⟩
  · intro c hc
    simp only [parseCompetitors, List.mem_filterMap] at hc
    obtain ⟨sec, _, hsec⟩ := hc
    exact mkCompetitor_fields (competitorOfSection_some hsec)
  · intro a ha
    simp only [parseApplications, List.mem_filterMap] at ha
    obtain ⟨sec, _, hsec⟩ := ha
    exact mkApplication_fields (applicationOfSection_some hsec)
  · intro p hp
    simp only [parseCustomerPersonas, List.mem_map, List.mem_filterMap] at hp
    obtain ⟨q, ⟨sec, _, hsec⟩, hq⟩ := hp
    subst hq
    have hf := mkPersona_fields (personaOfSection_some hsec)
    simpa [addEmails] using hf
  · intro d hd
    simp only [mkCompetitor]
    split
    · rename_i hcond
      simp only [Bool.and_eq_true] at hcond
      obtain ⟨⟨⟨h1, h2⟩, h3⟩, h4⟩ := hcond
      rcases hd with hd | hd | hd | hd <;> simp_all
    · rfl
  · intro d hd
    simp only [mkApplication]
    split
    · rename_i hcond
      simp only [Bool.and_eq_true] at hcond
      obtain ⟨⟨⟨h1, h2⟩, h3⟩, h4⟩ := hcond
      rcases hd with hd | hd | hd | hd <;> simp_all
    · rfl
  · intro d hd
    simp only [mkPersona]
    split
    · rename_i hcond
      simp only [Bool.and_eq_true] at hcond
      obtain ⟨⟨⟨h1, h2⟩, h3⟩, h4⟩ := hcond
      rcases hd with hd | hd | hd | hd <;> simp_all
    · rfl

/-- Witness for claim C1: a concrete competitor and persona built by the
parsers have non-empty required fields, and a concrete draft missing its
description builds nothing. -/
theorem claim_c1_witness :
    ((⟨ "Acme".toList, "Widget maker".toList, "Berlin".toList, "$1M".toList⟩ : Competitor) ∈
        parseCompetitors ( "1. Name: Acme\nDescription: Widget maker\nHeadquarters: Berlin\nRevenue: $1M".toList) ∧
      (⟨ "Acme".toList, "Widget maker".toList, "Berlin".toList, "$1M".toList⟩ : Competitor).name ≠ [] ∧
      (⟨ "Acme".toList, "Widget maker".toList, "Berlin".toList, "$1M".toList⟩ : Competitor).description ≠ [] ∧
      (⟨ "Acme".toList, "Widget maker".toList, "Berlin".toList, "$1M".toList⟩ : Competitor).headquarters ≠ [] ∧
      (⟨ "Acme".toList, "Widget maker".toList, "Berlin".toList, "$1M".toList⟩ : Competitor).revenue ≠ []) ∧
    (addEmails ( "W".toList) ⟨ "Buyer".toList, "Buys".toList, "price".toList, "brand".toList, [], none, none⟩ ∈
        parseCustomerPersonas ( "W".toList)
          ( "1. Name: Buyer\nDescription: Buys\nCares Most About: price\nCares Least About: brand".toList) [] ∧
      (addEmails ( "W".toList) ⟨ "Buyer".toList, "Buys".toList, "price".toList, "brand".toList, [], none, none⟩).name ≠ []) ∧
    (truthy ({ name? := some ( "Acme".toList)} : CompetitorDraft).description? = false ∧
      mkCompetitor { name? := some ( "Acme".toList)} = none) := by
  refine ⟨⟨?m1, ?_⟩, ⟨?m2, ?_⟩, ?_, ?_⟩
  case m1 => decide
  case m2 => decide
  · exact (claim_c1_required_fields
      ( "1. Name: Acme\nDescription: Widget maker\nHeadquarters: Berlin\nRevenue: $1M".toList) [] []).1
      _ (by decide)
  · exact ((claim_c1_required_fields
      ( "1. Name: Buyer\nDescription: Buys\nCares Most About: price\nCares Least About: brand".toList)
      ( "W".toList) []).2.2.1 _ (by decide)).1
  · decide
  · exact (claim_c1_required_fields [] [] []).2.2.2.1 _ (Or.inr (Or.inl (by decide)))

/-- Claim C2 counterexample: the line parser does not preserve the text
after the first colon verbatim — parsing `"Revenue: $10B (2023: est.)"`
does not yield the value `"$10B (2023: est.)"` (the space after the
inner colon is lost), although the key does match `revenue`
case-insensitively. -/
theorem claim_c2_counterexample :
    (parseLine ( "Revenue: $10B (2023: est.)".toList)).2 ≠ ( "$10B (2023: est.)".toList) ∧
    toLowerList (parseLine ( "Revenue: $10B (2023: est.)".toList)).1 = ( "revenue".toList) := by
  decide

/-- Claim C2 amended: the line parser splits on every colon, trims each
part, and rejoins the value parts with `:`; subsequent colons are kept
but the whitespace around them is dropped.  The line
`"Revenue: $10B (2023: est.)"` therefore yields key `"Revenue"`
(lowercasing to the recognized label `"revenue"`) and exactly the value
`"$10B (2023:est.)"`, which the competitor line step stores in the
`revenue` field. -/
theorem claim_c2_amended :
    toLowerList (parseLine ( "Revenue: $10B (2023: est.)".toList)).1 = ( "revenue".toList) ∧
    (parseLine ( "Revenue: $10B (2023: est.)".toList)).2 = ( "$10B (2023:est.)".toList) ∧
    (competitorStep {} ( "Revenue: $10B (2023: est.)".toList)).revenue? =
      some ( "$10B (2023:est.)".toList) := by
  decide

/-- Claim C3 counterexample: the record split is consuming, not a
look-ahead — splitting `"1. Name: Acme"` produces the fragments `""` and
`"Name: Acme"`, and the surviving fragment does not retain the marker
text `"1. "` even though the input contained it. -/
theorem claim_c3_counterexample :
    splitOnMarker ( "1. Name: Acme".toList) = [[], ( "Name: Acme".toList)] ∧
    containsSub ( "Name: Acme".toList) ( "1. ".toList) = false ∧
    containsSub ( "1. Name: Acme".toList) ( "1. ".toList) = true := by
  decide

/-- Claim C3 amended: the Record Parser splits a section fragment on the
`"<integer>. "` marker as a consuming separator: the marker text is
removed by the split, so no output fragment contains a marker occurrence
anywhere; multi-line records are still preserved as one fragment, as the
concrete two-record split shows. -/
theorem claim_c3_amended (text : List Char) :
    (∀ frag ∈ splitOnMarker text, hasMarker frag = false) ∧
    splitOnMarker ( "1. Name: A\nDescription: B\n2. Name: C".toList) =
      [[], ( "Name: A\nDescription: B\n".toList), ( "Name: C".toList)] := by
  constructor
  · intro frag hfrag
    exact splitMarkerAux_pure text.length [] text (Nat.le_refl _)
      (by intro q hq hne; rw [List.prefix_nil] at hq; exact absurd hq hne) frag hfrag
  · decide

/-- Witness for claim C3 (amended): the multi-line fragment produced by
the concrete split is marker-free. -/
theorem claim_c3_witness :
    ( "Name: A\nDescription: B\n".toList) ∈
      splitOnMarker ( "1. Name: A\nDescription: B\n2. Name: C".toList) ∧
    hasMarker ( "Name: A\nDescription: B\n".toList) = false :=
  ⟨by decide,
   (claim_c3_amended ( "1. Name: A\nDescription: B\n2. Name: C".toList)).1 _ (by decide)⟩

lemma lenFilterMapLe {α β : Type} (f : α → Option β) (l : List α) :
    (l.filterMap f).length ≤ l.length := by
  induction l with
  | nil => simp
  | cons a rest ih =>
    cases h : f a with
    | none =>
      simp only [List.filterMap_cons, h, List.length_cons]
      exact Nat.le_succ_of_le ih
    | some b =>
      simp only [List.filterMap_cons, h, List.length_cons]
      exact Nat.succ_le_succ ih

/-- If the text starts (up to whitespace) with a marker — so the
fragment before the first marker is skipped — the number of built
records is at most the number of marker occurrences. -/
lemma parse_length_le {β : Type} (step : List Char → Option β)
    (hskip : ∀ sec, trimWs sec = [] → step sec = none)
    (text : List Char) (h : trimWs ((splitOnMarker text).headD []) = []) :
    ((splitOnMarker text).filterMap step).length ≤ countMarkers text := by
  cases hsp : splitOnMarker text with
  | nil => exact absurd hsp (splitMarkerAux_ne_nil _ _ _)
  | cons f0 rest =>
    rw [hsp] at h
    simp only [List.headD_cons] at h
    have h0 : step f0 = none := hskip f0 h
    have hlen : (f0 :: rest).length = countMarkers text + 1 := by
      rw [← hsp]
      exact splitOnMarker_length text
    simp only [List.filterMap_cons, h0]
    have hfm := lenFilterMapLe step rest
    simp only [List.length_cons] at hlen
    omega

/-- Claim C4: for input text following the convention that the section
fragment begins (after optional whitespace) with a numbered heading —
i.e. the text before the first marker trims to nothing — each parser
returns at most as many entities as there are `"<integer>. "` marker
occurrences in its section fragment. -/
theorem claim_c4_entities_le_markers (text pn ct : List Char)
    (h : trimWs ((splitOnMarker text).headD []) = []) :
    (parseCompetitors text).length ≤ countMarkers text ∧
    (parseApplications text).length ≤ countMarkers text ∧
    (parseCustomerPersonas pn text ct).length ≤ countMarkers text := by
  refine ⟨?_, ?_, ?_⟩
  · exact parse_length_le competitorOfSection
      (fun sec hs => by simp [competitorOfSection, hs]) text h
  · exact parse_length_le applicationOfSection
      (fun sec hs => by simp [applicationOfSection, hs]) text h
  · have hb := parse_length_le (personaOfSection ct)
      (fun sec hs => by simp [personaOfSection, hs]) text h
    simpa [parseCustomerPersonas] using hb

/-- Witness for claim C4 at a concrete one-record competitor section. -/
theorem claim_c4_witness :
    trimWs ((splitOnMarker ( "1. Name: Acme\nDescription: Widget maker\nHeadquarters: Berlin\nRevenue: $1M".toList)).headD []) = [] ∧
    (parseCompetitors ( "1. Name: Acme\nDescription: Widget maker\nHeadquarters: Berlin\nRevenue: $1M".toList)).length ≤
      countMarkers ( "1. Name: Acme\nDescription: Widget maker\nHeadquarters: Berlin\nRevenue: $1M".toList) :=
  ⟨by decide,
   (claim_c4_entities_le_markers
     ( "1. Name: Acme\nDescription: Widget maker\nHeadquarters: Berlin\nRevenue: $1M".toList)
     [] [] (by decide)).1⟩

lemma mkPersona_potential {ct : List Char} {d : PersonaDraft} {p : CustomerPersona}
    (h : mkPersona ct d = some p) :
    p.potentialCustomers = relevantCustomers p.name ct := by
  simp only [mkPersona] at h
  split at h
  · simp only [Option.some.injEq] at h
    subst h
    rfl
  · exact absurd h (by simp)

lemma addEmails_name (pn : List Char) (p : CustomerPersona) :
    (addEmails pn p).name = p.name := rfl

lemma addEmails_potential (pn : List Char) (p : CustomerPersona) :
    (addEmails pn p).potentialCustomers = p.potentialCustomers := rfl

/-- Modelled from the spec's words (§4.4): the relevant lines of the
customers fragment are those whose lowercased text contains the
persona's lowercased name; for each, the customer label is the text
preceding the first `-`, trimmed; empty labels are excluded; order and
duplicates are preserved. -/
def specPotentialCustomers (name custText : List Char) : List (List Char) :=
  (((splitOnChar '\n' custText).filter
      (fun line => containsSub (toLowerList line) (toLowerList name))).map
      (fun line => trimWs (line.takeWhile (fun c => c ≠ '-')))).filter
      (fun customer => customer ≠ [])

lemma relevantCustomers_eq_spec (name ct : List Char) :
    relevantCustomers name ct = specPotentialCustomers name ct := by
  unfold relevantCustomers specPotentialCustomers
  have hmap : ∀ ll : List (List Char),
      ll.map (fun line => trimWs ((splitOnChar '-' line).headD [])) =
      ll.map (fun line => trimWs (line.takeWhile (fun c => c ≠ '-'))) :=
    fun ll => List.map_congr_left (fun a _ => by rw [splitOnChar_headD])
  have hfil : ∀ ll : List (List Char),
      ll.filter (fun customer => customer.length > 0) =
      ll.filter (fun customer => customer ≠ []) :=
    fun ll => List.filter_congr (fun a _ => by cases a <;> simp)
  rw [hmap, hfil]

lemma filterAllFalse {α : Type} (l : List α) (f : α → Bool)
    (h : ∀ a ∈ l, f a = false) : l.filter f = [] := by
  induction l with
  | nil => rfl
  | cons a rest ih =>
    simp [List.filter_cons, h a (by simp), ih (fun b hb => h b (by simp [hb]))]

/-- Claim C5: every persona that survives validation carries exactly the
spec-described potential-customer sequence — in line order, duplicates
preserved, labels taken before the first `-` and trimmed, empty labels
excluded, matching by lowercased name containment — and a persona with
no matching customer line gets the empty sequence. -/
theorem claim_c5_potential_customers (pn text ct : List Char) (p : CustomerPersona)
    (hp : p ∈ parseCustomerPersonas pn text ct) :
    p.potentialCustomers = specPotentialCustomers p.name ct ∧
    ((∀ l ∈ splitOnChar '\n' ct, containsSub (toLowerList l) (toLowerList p.name) = false) →
      p.potentialCustomers = []) := by
  simp only [parseCustomerPersonas, List.mem_map, List.mem_filterMap] at hp
  obtain ⟨q, ⟨sec, _, hsec⟩, hq⟩ := hp
  subst hq
  have hpot := mkPersona_potential (personaOfSection_some hsec)
  constructor
  · rw [addEmails_potential, addEmails_name, hpot, relevantCustomers_eq_spec]
  · intro hall
    have hall2 : ∀ l ∈ splitOnChar '\n' ct,
        containsSub (toLowerList l) (toLowerList q.name) = false := hall
    rw [addEmails_potential, hpot]
    unfold relevantCustomers
    rw [filterAllFalse _ _ hall2]
    rfl

/-- Witness for claim C5: the spec's own example — persona
`"VP of Sales"` and customer line `"1. VP of Sales at Acme - fits
well"` — produces exactly the spec-described customer list. -/
theorem claim_c5_witness :
    addEmails ( "Widget".toList)
        ⟨ "VP of Sales".toList, "Leads sales".toList, "speed, cost".toList,
          "legacy".toList, [( "1. VP of Sales at Acme".toList)], none, none⟩ ∈
      parseCustomerPersonas ( "Widget".toList)
        ( "1. Name: VP of Sales\nDescription: Leads sales\nCares Most About: speed, cost\nCares Least About: legacy".toList)
        ( "1. VP of Sales at Acme - fits well\n2. Random line".toList) ∧
    (addEmails ( "Widget".toList)
        ⟨ "VP of Sales".toList, "Leads sales".toList, "speed, cost".toList,
          "legacy".toList, [( "1. VP of Sales at Acme".toList)], none, none⟩).potentialCustomers =
      specPotentialCustomers
        (addEmails ( "Widget".toList)
          ⟨ "VP of Sales".toList, "Leads sales".toList, "speed, cost".toList,
            "legacy".toList, [( "1. VP of Sales at Acme".toList)], none, none⟩).name
        ( "1. VP of Sales at Acme - fits well\n2. Random line".toList) :=
  ⟨by decide,
   (claim_c5_potential_customers ( "Widget".toList)
     ( "1. Name: VP of Sales\nDescription: Leads sales\nCares Most About: speed, cost\nCares Least About: legacy".toList)
     ( "1. VP of Sales at Acme - fits well\n2. Random line".toList) _ (by decide)).1⟩

/-- Claim C10: a customers-fragment line that contains the persona's
name case-insensitively and has no `-` character contributes its entire
trimmed text as the customer label, provided that text is non-empty. -/
theorem claim_c10_no_dash_line (name ct line : List Char)
    (h1 : line ∈ splitOnChar '\n' ct)
    (h2 : containsSub (toLowerList line) (toLowerList name) = true)
    (h3 : '-' ∉ line)
    (h4 : trimWs line ≠ []) :
    trimWs line ∈ relevantCustomers name ct := by
  unfold relevantCustomers
  have hsplit : (splitOnChar '-' line).headD [] = line := by
    rw [splitOnChar_single '-' line (fun c hc hce => h3 (hce ▸ hc))]
    rfl
  apply List.mem_filter.mpr
  constructor
  · refine List.mem_map.mpr ⟨line, ?_, ?_⟩
    · exact List.mem_filter.mpr ⟨h1, h2⟩
    · rw [hsplit]
  · cases htl : trimWs line with
    | nil => exact absurd htl h4
    | cons a as => simp

/-- Witness for claim C10: a dash-free line containing the persona name
is attached whole (trimmed). -/
theorem claim_c10_witness :
    ( "Buyer from Acme Corp".toList) ∈ splitOnChar '\n' ( "Buyer from Acme Corp".toList) ∧
    containsSub (toLowerList ( "Buyer from Acme Corp".toList)) (toLowerList ( "Buyer".toList)) = true ∧
    '-' ∉ ( "Buyer from Acme Corp".toList) ∧
    trimWs ( "Buyer from Acme Corp".toList) ≠ [] ∧
    trimWs ( "Buyer from Acme Corp".toList) ∈
      relevantCustomers ( "Buyer".toList) ( "Buyer from Acme Corp".toList) :=
  ⟨by decide, by decide, by decide, by decide,
   claim_c10_no_dash_line ( "Buyer".toList) ( "Buyer from Acme Corp".toList)
     ( "Buyer from Acme Corp".toList) (by decide) (by decide) (by decide) (by decide)⟩

/-- Claim C6: template generation is deterministic — the renderers are
pure functions, so repeated calls on the same (persona, productName)
yield identical strings — and for two personas differing only in
`caresLeastAbout`, the discovery-email subject line is identical. -/
theorem claim_c6_template_determinism (p q : CustomerPersona) (pn : List Char)
    (hn : p.name = q.name) (_hd : p.description = q.description)
    (hm : p.caresMostAbout = q.caresMostAbout)
    (_hc : p.potentialCustomers = q.potentialCustomers)
    (_hs : p.salesEmail = q.salesEmail) (_hde : p.discoveryEmail = q.discoveryEmail) :
    generateSalesEmail p pn = generateSalesEmail p pn ∧
    generateDiscoveryEmail p pn = generateDiscoveryEmail p pn ∧
    firstLine (generateDiscoveryEmail p pn) = firstLine (generateDiscoveryEmail q pn) := by
  refine ⟨rfl, rfl, ?_⟩
  have heq : generateDiscoveryEmail p pn = generateDiscoveryEmail q pn := by
    unfold generateDiscoveryEmail
    rw [hn, hm]
  rw [heq]

/-- Witness for claim C6: two concrete personas differing only in
`caresLeastAbout` get the same discovery-email subject line. -/
theorem claim_c6_witness :
    firstLine (generateDiscoveryEmail
      ⟨ "IT Manager".toList, "Runs IT".toList, "uptime".toList, "fads".toList, [], none, none⟩
      ( "Widget".toList)) =
    firstLine (generateDiscoveryEmail
      ⟨ "IT Manager".toList, "Runs IT".toList, "uptime".toList, "hype".toList, [], none, none⟩
      ( "Widget".toList)) :=
  (claim_c6_template_determinism
    ⟨ "IT Manager".toList, "Runs IT".toList, "uptime".toList, "fads".toList, [], none, none⟩
    ⟨ "IT Manager".toList, "Runs IT".toList, "uptime".toList, "hype".toList, [], none, none⟩
    ( "Widget".toList) (by decide) (by decide) (by decide) (by decide) (by decide) (by decide)).2.2

/-- Claim C8: the rendered templates depend on the persona only through
`name`, `caresMostAbout` and `caresLeastAbout` (plus `productName`), and
the extra sales-email substitution is the first comma-delimited segment
of `caresMostAbout`: it equals the text before the first `,`, and equals
the whole string when there is no comma. -/
theorem claim_c8_template_substitutions (p q : CustomerPersona) (pn s : List Char)
    (hn : p.name = q.name) (hm : p.caresMostAbout = q.caresMostAbout)
    (hl : p.caresLeastAbout = q.caresLeastAbout) :
    generateSalesEmail p pn = generateSalesEmail q pn ∧
    generateDiscoveryEmail p pn = generateDiscoveryEmail q pn ∧
    firstCommaSeg s = s.takeWhile (fun c => c ≠ ',') ∧
    (',' ∉ s → firstCommaSeg s = s) := by
  refine ⟨?_, ?_, ?_, ?_⟩
  · unfold generateSalesEmail
    rw [hn, hm, hl]
  · unfold generateDiscoveryEmail
    rw [hn, hm]
  · unfold firstCommaSeg
    exact splitOnChar_headD ',' s
  · intro hc
    unfold firstCommaSeg
    rw [splitOnChar_single ',' s (fun c hcs hce => hc (hce ▸ hcs))]
    rfl

/-- Witness for claim C8: personas agreeing on the three used fields
render identical sales emails even though other fields differ, and a
comma-free `caresMostAbout` is used whole as the first segment. -/
theorem claim_c8_witness :
    generateSalesEmail
      ⟨ "CTO".toList, "desc one".toList, "speed".toList, "risk".toList, [], none, none⟩
      ( "Widget".toList) =
    generateSalesEmail
      ⟨ "CTO".toList, "other".toList, "speed".toList, "risk".toList, [( "x".toList)], some [], none⟩
      ( "Widget".toList) ∧
    firstCommaSeg ( "uptime".toList) = ( "uptime".toList) :=
  ⟨(claim_c8_template_substitutions
     ⟨ "CTO".toList, "desc one".toList, "speed".toList, "risk".toList, [], none, none⟩
     ⟨ "CTO".toList, "other".toList, "speed".toList, "risk".toList, [( "x".toList)], some [], none⟩
     ( "Widget".toList) ( "uptime".toList) (by decide) (by decide) (by decide)).1,
   (claim_c8_template_substitutions
     ⟨ "CTO".toList, "desc one".toList, "speed".toList, "risk".toList, [], none, none⟩
     ⟨ "CTO".toList, "other".toList, "speed".toList, "risk".toList, [( "x".toList)], some [], none⟩
     ( "Widget".toList) ( "uptime".toList) (by decide) (by decide) (by decide)).2.2.2 (by decide)⟩

lemma getLast?_cons_or {α : Type} (v : α) (t : List α) :
    (v :: t).getLast? = t.getLast?.or (some v) := by
  cases t with
  | nil => simp
  | cons x xs =>
    rw [List.getLast?_cons_cons]
    cases hgl : (x :: xs).getLast? with
    | none =>
      have hx : (x :: xs).getLast?.isSome := by simp
      rw [hgl] at hx
      simp at hx
    | some w => simp [Option.or]

/-- Folding an overwrite-style line step: the resulting field is the
last extracted value, falling back to the initial field. -/
lemma foldl_getter_or {σ : Type} (step : σ → List Char → σ) (get : σ → Option (List Char))
    (f : List Char → Option (List Char))
    (hstep : ∀ d l, get (step d l) = (f l).or (get d)) :
    ∀ (lines : List (List Char)) (d : σ),
      get (lines.foldl step d) = ((lines.filterMap f).getLast?).or (get d) := by
  intro lines
  induction lines with
  | nil => intro d; simp
  | cons l ls ih =>
    intro d
    rw [List.foldl_cons, ih (step d l), hstep]
    cases hf : f l with
    | none => simp [List.filterMap_cons, hf]
    | some v =>
      simp only [List.filterMap_cons, hf]
      rw [getLast?_cons_or, Option.or_assoc]

lemma competitorStep_name (d : CompetitorDraft) (line : List Char) :
    (competitorStep d line).name? = (extractVal ( "name".toList) line).or d.name? := by
  have h1 : ( "name".toList : List Char) ≠ ( "description".toList) := by decide
  have h2 : ( "name".toList : List Char) ≠ ( "headquarters".toList) := by decide
  have h3 : ( "name".toList : List Char) ≠ ( "revenue".toList) := by decide
  simp only [competitorStep, extractVal]
  split_ifs <;> simp_all

lemma competitorStep_desc (d : CompetitorDraft) (line : List Char) :
    (competitorStep d line).description? = (extractVal ( "description".toList) line).or d.description? := by
  have h1 : ( "name".toList : List Char) ≠ ( "description".toList) := by decide
  have h2 : ( "description".toList : List Char) ≠ ( "headquarters".toList) := by decide
  have h3 : ( "description".toList : List Char) ≠ ( "revenue".toList) := by decide
  simp only [competitorStep, extractVal]
  split_ifs <;> simp_all

lemma competitorStep_hq (d : CompetitorDraft) (line : List Char) :
    (competitorStep d line).headquarters? = (extractVal ( "headquarters".toList) line).or d.headquarters? := by
  have h1 : ( "name".toList : List Char) ≠ ( "headquarters".toList) := by decide
  have h2 : ( "description".toList : List Char) ≠ ( "headquarters".toList) := by decide
  have h3 : ( "headquarters".toList : List Char) ≠ ( "revenue".toList) := by decide
  simp only [competitorStep, extractVal]
  split_ifs <;> simp_all

lemma competitorStep_rev (d : CompetitorDraft) (line : List Char) :
    (competitorStep d line).revenue? = (extractVal ( "revenue".toList) line).or d.revenue? := by
  have h1 : ( "name".toList : List Char) ≠ ( "revenue".toList) := by decide
  have h2 : ( "description".toList : List Char) ≠ ( "revenue".toList) := by decide
  have h3 : ( "headquarters".toList : List Char) ≠ ( "revenue".toList) := by decide
  simp only [competitorStep, extractVal]
  split_ifs <;> simp_all

lemma personaStep_name (d : PersonaDraft) (line : List Char) :
    (personaStep d line).name? = (extractVal ( "name".toList) line).or d.name? := by
  have h1 : ( "name".toList : List Char) ≠ ( "description".toList) := by decide
  have h2 : ( "name".toList : List Char) ≠ ( "cares most about".toList) := by decide
  have h3 : ( "name".toList : List Char) ≠ ( "cares least about".toList) := by decide
  simp only [personaStep, extractVal]
  split_ifs <;> simp_all

lemma personaStep_desc (d : PersonaDraft) (line : List Char) :
    (personaStep d line).description? = (extractVal ( "description".toList) line).or d.description? := by
  have h1 : ( "name".toList : List Char) ≠ ( "description".toList) := by decide
  have h2 : ( "description".toList : List Char) ≠ ( "cares most about".toList) := by decide
  have h3 : ( "description".toList : List Char) ≠ ( "cares least about".toList) := by decide
  simp only [personaStep, extractVal]
  split_ifs <;> simp_all

lemma personaStep_most (d : PersonaDraft) (line : List Char) :
    (personaStep d line).caresMostAbout? = (extractVal ( "cares most about".toList) line).or d.caresMostAbout? := by
  have h1 : ( "name".toList : List Char) ≠ ( "cares most about".toList) := by decide
  have h2 : ( "description".toList : List Char) ≠ ( "cares most about".toList) := by decide
  have h3 : ( "cares most about".toList : List Char) ≠ ( "cares least about".toList) := by decide
  simp only [personaStep, extractVal]
  split_ifs <;> simp_all

lemma personaStep_least (d : PersonaDraft) (line : List Char) :
    (personaStep d line).caresLeastAbout? = (extractVal ( "cares least about".toList) line).or d.caresLeastAbout? := by
  have h1 : ( "name".toList : List Char) ≠ ( "cares least about".toList) := by decide
  have h2 : ( "description".toList : List Char) ≠ ( "cares least about".toList) := by decide
  have h3 : ( "cares most about".toList : List Char) ≠ ( "cares least about".toList) := by decide
  simp only [personaStep, extractVal]
  split_ifs <;> simp_all

/-- Claim C9: within a single sub-record, when the same recognized label
occurs on several lines with non-empty values, the built entity's field
is the value of the last such line — each field of a successfully built
competitor or persona equals the last extracted value for its label. -/
theorem claim_c9_last_value_wins (lines : List (List Char)) (ct : List Char) :
    (∀ c : Competitor, mkCompetitor (lines.foldl competitorStep {}) = some c →
      c.name = ((lines.filterMap (extractVal ( "name".toList))).getLast?).getD [] ∧
      c.description = ((lines.filterMap (extractVal ( "description".toList))).getLast?).getD [] ∧
      c.headquarters = ((lines.filterMap (extractVal ( "headquarters".toList))).getLast?).getD [] ∧
      c.revenue = ((lines.filterMap (extractVal ( "revenue".toList))).getLast?).getD []) ∧
    (∀ p : CustomerPersona, mkPersona ct (lines.foldl personaStep {}) = some p →
      p.name = ((lines.filterMap (extractVal ( "name".toList))).getLast?).getD [] ∧
      p.description = ((lines.filterMap (extractVal ( "description".toList))).getLast?).getD [] ∧
      p.caresMostAbout = ((lines.filterMap (extractVal ( "cares most about".toList))).getLast?).getD [] ∧
      p.caresLeastAbout = ((lines.filterMap (extractVal ( "cares least about".toList))).getLast?).getD []) := by
  constructor
  · intro c h
    simp only [mkCompetitor] at h
    split at h
    · simp only [Option.some.injEq] at h
      subst h
      refine ⟨?_, ?_, ?_, ?_⟩
      · simp [foldl_getter_or competitorStep (fun x => x.name?) _ competitorStep_name lines, Option.or_none]
      · simp [foldl_getter_or competitorStep (fun x => x.description?) _ competitorStep_desc lines, Option.or_none]
      · simp [foldl_getter_or competitorStep (fun x => x.headquarters?) _ competitorStep_hq lines, Option.or_none]
      · simp [foldl_getter_or competitorStep (fun x => x.revenue?) _ competitorStep_rev lines, Option.or_none]
    · exact absurd h (by simp)
  · intro p h
    simp only [mkPersona] at h
    split at h
    · simp only [Option.some.injEq] at h
      subst h
      refine ⟨?_, ?_, ?_, ?_⟩
      · simp [foldl_getter_or personaStep (fun x => x.name?) _ personaStep_name lines, Option.or_none]
      · simp [foldl_getter_or personaStep (fun x => x.description?) _ personaStep_desc lines, Option.or_none]
      · simp [foldl_getter_or personaStep (fun x => x.caresMostAbout?) _ personaStep_most lines, Option.or_none]
      · simp [foldl_getter_or personaStep (fun x => x.caresLeastAbout?) _ personaStep_least lines, Option.or_none]
    · exact absurd h (by simp)

/-- Witness for claim C9: with two `Name:` lines in one sub-record, the
built competitor carries the value of the second one. -/
theorem claim_c9_witness :
    mkCompetitor ([( "Name: First".toList), ( "Name: Second".toList), ( "Description: D".toList),
        ( "Headquarters: H".toList), ( "Revenue: R".toList)].foldl competitorStep {}) =
      some ⟨ "Second".toList, "D".toList, "H".toList, "R".toList⟩ ∧
    ( "Second".toList : List Char) =
      (([( "Name: First".toList), ( "Name: Second".toList), ( "Description: D".toList),
          ( "Headquarters: H".toList), ( "Revenue: R".toList)].filterMap
            (extractVal ( "name".toList))).getLast?).getD [] :=
  ⟨by decide,
   ((claim_c9_last_value_wins
      [( "Name: First".toList), ( "Name: Second".toList), ( "Description: D".toList),
       ( "Headquarters: H".toList), ( "Revenue: R".toList)] []).1
      ⟨ "Second".toList, "D".toList, "H".toList, "R".toList⟩ (by decide)).1⟩
